import Mathlib

/-!
Verification of the encoding module of meshopt-rs.

The quantization helpers (`calc_pos_offset_and_scale`, `calc_uv_offset_and_scale`
and their `_inverse` variants) are translated directly from `src/encoding.rs`.
Float values are modelled as exact rationals: every arithmetic operation these
helpers perform (`min`, `max`, subtraction) is exact on the dyadic inputs the
claims speak about, `f32::MAX` is modelled by its exact rational value, and a
Rust panic (out-of-range slice index in a partial chunk) is modelled by `none`.
A fold over `slice::chunks(k)` whose body indexes elements `0..k` of each chunk
is embedded as a structural fold that peels `k` elements at a time and returns
`none` on a partial final chunk (the iteration order and seed values are kept
exactly as in the source).

The index and vertex codecs live behind FFI calls in `src/encoding.rs`
(`meshopt_encodeIndexBuffer` etc.), so their bodies are modelled from the
specification: deterministic prediction-table replay for the index codec,
block-wise per-channel delta coding with a selector ladder for the vertex
codec, version-tagged byte streams, and bound queries that dominate the
encoders' output sizes.
-/

set_option allowUnsafeReducibility true in
attribute [semireducible] Rat.sub Rat.add Rat.mul Rat.inv Rat.div Rat.neg

/-- Fold over `chunks(3)` of a flat float list, as in the two folds of
`calc_pos_offset_and_scale`: each full chunk contributes its three components;
a partial final chunk makes the Rust closure panic (`position[1]` or
`position[2]` out of range), modelled as `none`. -/
def foldF3 {α : Type} (f : α → ℚ × ℚ × ℚ → α) (acc : α) : List ℚ → Option α
  | [] => some acc
  | a :: b :: c :: rest => foldF3 f (f acc (a, b, c)) rest
  | _ => none

/-- Fold over `chunks(2)` of a flat float list, as in the two folds of
`calc_uv_offset_and_scale`: each full chunk contributes its two components; a
partial final chunk makes the Rust closure panic (`coord[1]` out of range),
modelled as `none`. -/
def foldF2 {α : Type} (f : α → ℚ × ℚ → α) (acc : α) : List ℚ → Option α
  | [] => some acc
  | a :: b :: rest => foldF2 f (f acc (a, b)) rest
  | _ => none

/-- `f32::min` on non-NaN values: the smaller argument. -/
def fmin (a b : ℚ) : ℚ := if a ≤ b then a else b

/-- `f32::max` on non-NaN values: the larger argument. -/
def fmax (a b : ℚ) : ℚ := if a ≤ b then b else a

/-- The exact rational value of `f32::MAX`. -/
def f32Max : ℚ := 340282346638528859811704183484516925440

/-- The closure of the offset fold of `calc_pos_offset_and_scale`:
component-wise `f32::min` with the running result. -/
def posMinStep (r p : ℚ × ℚ × ℚ) : ℚ × ℚ × ℚ :=
  (fmin r.1 p.1, fmin r.2.1 p.2.1, fmin r.2.2 p.2.2)

/-- The closure of the scale fold of `calc_pos_offset_and_scale`: running
`f32::max` of the three per-axis differences from the offset. -/
def posMaxStep (off : ℚ × ℚ × ℚ) (r : ℚ) (p : ℚ × ℚ × ℚ) : ℚ :=
  fmax (fmax (fmax r (p.1 - off.1)) (p.2.1 - off.2.1)) (p.2.2 - off.2.2)

/-- `calc_pos_offset_and_scale` from `src/encoding.rs`: component-wise minimum
over 3-chunks seeded with `[f32::MAX; 3]`, then a single uniform scale folded
with `max` seeded with `0f32` over the per-axis differences from the offset. -/
def calc_pos_offset_and_scale (positions : List ℚ) : Option ((ℚ × ℚ × ℚ) × ℚ) :=
  match foldF3 posMinStep (f32Max, f32Max, f32Max) positions with
  | none => none
  | some off =>
    match foldF3 (posMaxStep off) 0 positions with
    | none => none
    | some sc => some (off, sc)

/-- Modelled from the spec: `rcp_safe` (from the crate's utilities module, which
is not part of the provided sources) is the safe reciprocal — `0` when the input
is `0`, `1/x` otherwise, never NaN or infinity. -/
def rcp_safe (x : ℚ) : ℚ := if x = 0 then 0 else 1 / x

/-- `calc_pos_offset_and_scale_inverse` from `src/encoding.rs`: same offset,
scale replaced by its safe reciprocal. -/
def calc_pos_offset_and_scale_inverse (positions : List ℚ) : Option ((ℚ × ℚ × ℚ) × ℚ) :=
  (calc_pos_offset_and_scale positions).map (fun r => (r.1, rcp_safe r.2))

/-- `calc_uv_offset_and_scale` from `src/encoding.rs`: component-wise minimum
over 2-chunks seeded with `[f32::MAX; 2]`, then a per-axis scale folded with
`max` over the per-axis differences from the offset — seeded, as in the source,
with `[f32::MAX, f32::MAX]`. -/
def calc_uv_offset_and_scale (coords : List ℚ) : Option ((ℚ × ℚ) × (ℚ × ℚ)) :=
  match foldF2 (fun r c => (fmin r.1 c.1, fmin r.2 c.2)) (f32Max, f32Max) coords with
  | none => none
  | some off =>
    match foldF2 (fun r c => (fmax r.1 (c.1 - off.1), fmax r.2 (c.2 - off.2)))
        (f32Max, f32Max) coords with
    | none => none
    | some sc => some (off, sc)

/-- `calc_uv_offset_and_scale_inverse` from `src/encoding.rs`: same offset,
per-axis safe reciprocals of the scale. -/
def calc_uv_offset_and_scale_inverse (coords : List ℚ) : Option ((ℚ × ℚ) × (ℚ × ℚ)) :=
  (calc_uv_offset_and_scale coords).map (fun r => (r.1, (rcp_safe r.2.1, rcp_safe r.2.2)))

/-- The 3-component points of a flat position list (meaningful when the length
is a multiple of 3). -/
def qtriples : List ℚ → List (ℚ × ℚ × ℚ)
  | a :: b :: c :: rest => (a, b, c) :: qtriples rest
  | _ => []

lemma fmin_le_left (a b : ℚ) : fmin a b ≤ a := by
  simp only [fmin]; split
  · exact le_rfl
  · exact le_of_not_le (by assumption)

lemma fmin_le_right (a b : ℚ) : fmin a b ≤ b := by
  simp only [fmin]; split
  · assumption
  · exact le_rfl

lemma le_fmax_left (a b : ℚ) : a ≤ fmax a b := by
  simp only [fmax]; split
  · assumption
  · exact le_rfl

lemma le_fmax_right (a b : ℚ) : b ≤ fmax a b := by
  simp only [fmax]; split
  · exact le_rfl
  · exact le_of_not_le (by assumption)

lemma fmax_choice (a b : ℚ) : fmax a b = a ∨ fmax a b = b := by
  simp only [fmax]; split
  · exact Or.inr rfl
  · exact Or.inl rfl

lemma foldF3_eq_foldl {α : Type} (f : α → ℚ × ℚ × ℚ → α) :
    ∀ (ps : List ℚ) (acc : α), 3 ∣ ps.length →
      foldF3 f acc ps = some (List.foldl f acc (qtriples ps))
  | [], acc, _ => rfl
  | [a], _, h => by simp at h
  | [a, b], _, h => by simp at h; omega
  | a :: b :: c :: rest, acc, h => by
      have h' : 3 ∣ rest.length := by
        simp only [List.length_cons] at h; omega
      simp only [foldF3, qtriples, List.foldl]
      exact foldF3_eq_foldl f rest (f acc (a, b, c)) h'

lemma foldF3_none {α : Type} (f : α → ℚ × ℚ × ℚ → α) :
    ∀ (ps : List ℚ) (acc : α), ¬ 3 ∣ ps.length → foldF3 f acc ps = none
  | [], _, h => absurd ⟨0, rfl⟩ h
  | [a], _, _ => rfl
  | [a, b], _, _ => rfl
  | a :: b :: c :: rest, acc, h =>
      foldF3_none f rest (f acc (a, b, c))
        (fun hd => h (by simp only [List.length_cons]; omega))

lemma foldF2_none {α : Type} (f : α → ℚ × ℚ → α) :
    ∀ (cs : List ℚ) (acc : α), ¬ 2 ∣ cs.length → foldF2 f acc cs = none
  | [], _, h => absurd ⟨0, rfl⟩ h
  | [a], _, _ => rfl
  | a :: b :: rest, acc, h =>
      foldF2_none f rest (f acc (a, b))
        (fun hd => h (by simp only [List.length_cons]; omega))

lemma posMinFold_le_acc :
    ∀ (ts : List (ℚ × ℚ × ℚ)) (acc : ℚ × ℚ × ℚ),
      (List.foldl posMinStep acc ts).1 ≤ acc.1 ∧
      (List.foldl posMinStep acc ts).2.1 ≤ acc.2.1 ∧
      (List.foldl posMinStep acc ts).2.2 ≤ acc.2.2
  | [], acc => ⟨le_rfl, le_rfl, le_rfl⟩
  | t :: ts, acc => by
      have ih := posMinFold_le_acc ts (posMinStep acc t)
      simp only [List.foldl] at *
      exact ⟨ih.1.trans (fmin_le_left _ _), ih.2.1.trans (fmin_le_left _ _),
        ih.2.2.trans (fmin_le_left _ _)⟩

lemma posMinFold_le_mem :
    ∀ (ts : List (ℚ × ℚ × ℚ)) (acc : ℚ × ℚ × ℚ), ∀ t ∈ ts,
      (List.foldl posMinStep acc ts).1 ≤ t.1 ∧
      (List.foldl posMinStep acc ts).2.1 ≤ t.2.1 ∧
      (List.foldl posMinStep acc ts).2.2 ≤ t.2.2
  | [], _, t, ht => absurd ht (List.not_mem_nil t)
  | u :: ts, acc, t, ht => by
      rcases List.mem_cons.mp ht with h | h
      · subst h
        have hle := posMinFold_le_acc ts (posMinStep acc t)
        simp only [List.foldl]
        exact ⟨hle.1.trans (fmin_le_right _ _), hle.2.1.trans (fmin_le_right _ _),
          hle.2.2.trans (fmin_le_right _ _)⟩
      · simpa only [List.foldl] using posMinFold_le_mem ts (posMinStep acc u) t h

lemma posMaxFold_ge_acc (off : ℚ × ℚ × ℚ) :
    ∀ (ts : List (ℚ × ℚ × ℚ)) (acc : ℚ),
      acc ≤ List.foldl (posMaxStep off) acc ts
  | [], acc => le_rfl
  | t :: ts, acc => by
      have ih := posMaxFold_ge_acc off ts (posMaxStep off acc t)
      have hstep : acc ≤ posMaxStep off acc t :=
        ((le_fmax_left _ _).trans (le_fmax_left _ _)).trans (le_fmax_left _ _)
      simpa only [List.foldl] using hstep.trans ih

lemma posMaxFold_ge_mem (off : ℚ × ℚ × ℚ) :
    ∀ (ts : List (ℚ × ℚ × ℚ)) (acc : ℚ), ∀ t ∈ ts,
      t.1 - off.1 ≤ List.foldl (posMaxStep off) acc ts ∧
      t.2.1 - off.2.1 ≤ List.foldl (posMaxStep off) acc ts ∧
      t.2.2 - off.2.2 ≤ List.foldl (posMaxStep off) acc ts
  | [], _, t, ht => absurd ht (List.not_mem_nil t)
  | u :: ts, acc, t, ht => by
      rcases List.mem_cons.mp ht with h | h
      · subst h
        have hge := posMaxFold_ge_acc off ts (posMaxStep off acc t)
        have h1 : t.1 - off.1 ≤ posMaxStep off acc t :=
          ((le_fmax_right _ _).trans (le_fmax_left _ _)).trans (le_fmax_left _ _)
        have h2 : t.2.1 - off.2.1 ≤ posMaxStep off acc t :=
          (le_fmax_right _ _).trans (le_fmax_left _ _)
        have h3 : t.2.2 - off.2.2 ≤ posMaxStep off acc t := le_fmax_right _ _
        simp only [List.foldl]
        exact ⟨h1.trans hge, h2.trans hge, h3.trans hge⟩
      · simpa only [List.foldl] using posMaxFold_ge_mem off ts (posMaxStep off acc u) t h

lemma posMaxFold_cases (off : ℚ × ℚ × ℚ) :
    ∀ (ts : List (ℚ × ℚ × ℚ)) (acc : ℚ),
      List.foldl (posMaxStep off) acc ts = acc ∨
      ∃ t ∈ ts, List.foldl (posMaxStep off) acc ts = t.1 - off.1 ∨
        List.foldl (posMaxStep off) acc ts = t.2.1 - off.2.1 ∨
        List.foldl (posMaxStep off) acc ts = t.2.2 - off.2.2
  | [], acc => Or.inl rfl
  | t :: ts, acc => by
      simp only [List.foldl]
      rcases posMaxFold_cases off ts (posMaxStep off acc t) with h | ⟨u, hu, h⟩
      · rw [h]
        have hc : posMaxStep off acc t = acc ∨
            posMaxStep off acc t = t.1 - off.1 ∨
            posMaxStep off acc t = t.2.1 - off.2.1 ∨
            posMaxStep off acc t = t.2.2 - off.2.2 := by
          unfold posMaxStep
          rcases fmax_choice (fmax (fmax acc (t.1 - off.1)) (t.2.1 - off.2.1)) (t.2.2 - off.2.2)
            with h3 | h3
          · rw [h3]
            rcases fmax_choice (fmax acc (t.1 - off.1)) (t.2.1 - off.2.1) with h2 | h2
            · rw [h2]
              rcases fmax_choice acc (t.1 - off.1) with h1 | h1
              · exact Or.inl h1
              · exact Or.inr (Or.inl h1)
            · exact Or.inr (Or.inr (Or.inl h2))
          · exact Or.inr (Or.inr (Or.inr h3))
        rcases hc with h' | h'
        · exact Or.inl h'
        · exact Or.inr ⟨t, List.mem_cons_self t ts, h'⟩
      · exact Or.inr ⟨u, List.mem_cons_of_mem t hu, h⟩

lemma qtriples_ne_nil (ps : List ℚ) (hne : ps ≠ []) (h3 : 3 ∣ ps.length) :
    qtriples ps ≠ [] := by
  match ps with
  | [] => exact absurd rfl hne
  | [a] => simp at h3
  | [a, b] => simp at h3; omega
  | a :: b :: c :: rest => simp [qtriples]

/-- C1: the spec claims `calc_uv_offset_and_scale` on the UV list
`[(0,0), (1,2), (0.5,0.5)]` returns `offset = (0,0)` and `scale = (1,2)`.
The code disagrees: its scale fold is seeded with `[f32::MAX, f32::MAX]`
(instead of zero, as the position variant is), so the returned per-axis scale
is `(f32::MAX, f32::MAX)`, not the per-axis maximum of `value - offset`.
This theorem evaluates the code at the claimed input. -/
theorem claim_c1_uv_scale_at_failing_input :
    calc_uv_offset_and_scale [0, 0, 1, 2, 1/2, 1/2] =
      some ((0, 0), (f32Max, f32Max)) ∧
    ((f32Max, f32Max) : ℚ × ℚ) ≠ ((1 : ℚ), (2 : ℚ)) := by
  constructor
  · decide
  · decide

/-- C4: for every non-empty position list whose length is a multiple of 3,
`calc_pos_offset_and_scale` succeeds, its offset is a component-wise lower
bound of every point, its single uniform scale dominates every per-axis
difference from the offset, and the scale is attained by some point/axis
pair. -/
theorem claim_c4_pos_offset_and_scale_bounds (ps : List ℚ)
    (hne : ps ≠ []) (h3 : 3 ∣ ps.length) :
    ∃ off sc, calc_pos_offset_and_scale ps = some (off, sc) ∧
      (∀ t ∈ qtriples ps,
        off.1 ≤ t.1 ∧ off.2.1 ≤ t.2.1 ∧ off.2.2 ≤ t.2.2 ∧
        t.1 - off.1 ≤ sc ∧ t.2.1 - off.2.1 ≤ sc ∧ t.2.2 - off.2.2 ≤ sc) ∧
      (∃ t ∈ qtriples ps,
        sc = t.1 - off.1 ∨ sc = t.2.1 - off.2.1 ∨ sc = t.2.2 - off.2.2) := by
  obtain ⟨off, hoff⟩ : ∃ off,
      List.foldl posMinStep (f32Max, f32Max, f32Max) (qtriples ps) = off := ⟨_, rfl⟩
  obtain ⟨sc, hsc⟩ : ∃ sc, List.foldl (posMaxStep off) 0 (qtriples ps) = sc := ⟨_, rfl⟩
  refine ⟨off, sc, ?_, ?_, ?_⟩
  · simp [calc_pos_offset_and_scale, foldF3_eq_foldl _ _ _ h3, hoff, hsc]
  · intro t ht
    have hm := posMinFold_le_mem (qtriples ps) (f32Max, f32Max, f32Max) t ht
    have hg := posMaxFold_ge_mem off (qtriples ps) 0 t ht
    rw [hoff] at hm
    rw [hsc] at hg
    exact ⟨hm.1, hm.2.1, hm.2.2, hg.1, hg.2.1, hg.2.2⟩
  · have hcases := posMaxFold_cases off (qtriples ps) 0
    rw [hsc] at hcases
    rcases hcases with h0 | ⟨t, ht, hcase⟩
    · have htne := qtriples_ne_nil ps hne h3
      obtain ⟨t, ts', hcons⟩ := List.exists_cons_of_ne_nil htne
      have ht : t ∈ qtriples ps := by rw [hcons]; exact List.mem_cons_self t ts'
      have hm := posMinFold_le_mem (qtriples ps) (f32Max, f32Max, f32Max) t ht
      have hg := posMaxFold_ge_mem off (qtriples ps) 0 t ht
      rw [hoff] at hm
      rw [hsc] at hg
      refine ⟨t, ht, Or.inl ?_⟩
      have h1 : 0 ≤ t.1 - off.1 := by have := hm.1; linarith
      have h2 : t.1 - off.1 ≤ sc := hg.1
      rw [h0]
      linarith
    · exact ⟨t, ht, hcase⟩

/-- Witness for C4 at the concrete position list `[0,0,0, 1,2,3]`. -/
theorem claim_c4_pos_offset_and_scale_bounds_witness :
    (([0, 0, 0, 1, 2, 3] : List ℚ) ≠ [] ∧ 3 ∣ ([0, 0, 0, 1, 2, 3] : List ℚ).length) ∧
    (∃ off sc, calc_pos_offset_and_scale [0, 0, 0, 1, 2, 3] = some (off, sc) ∧
      (∀ t ∈ qtriples [0, 0, 0, 1, 2, 3],
        off.1 ≤ t.1 ∧ off.2.1 ≤ t.2.1 ∧ off.2.2 ≤ t.2.2 ∧
        t.1 - off.1 ≤ sc ∧ t.2.1 - off.2.1 ≤ sc ∧ t.2.2 - off.2.2 ≤ sc) ∧
      (∃ t ∈ qtriples [0, 0, 0, 1, 2, 3],
        sc = t.1 - off.1 ∨ sc = t.2.1 - off.2.1 ∨ sc = t.2.2 - off.2.2)) :=
  ⟨⟨by decide, by decide⟩,
    claim_c4_pos_offset_and_scale_bounds [0, 0, 0, 1, 2, 3] (by decide) (by decide)⟩

/-- C5: the `_inverse` variants return the same offset as their non-inverse
counterparts together with the safe reciprocal of the scale (per axis for UV),
and the safe reciprocal is `0` at `0` and exactly `1/s` for positive `s`. -/
theorem claim_c5_inverse_safe_reciprocal (ps cs : List ℚ)
    (o1 : ℚ × ℚ × ℚ) (s1 : ℚ) (o2 s2 : ℚ × ℚ)
    (h1 : calc_pos_offset_and_scale ps = some (o1, s1))
    (h2 : calc_uv_offset_and_scale cs = some (o2, s2)) :
    calc_pos_offset_and_scale_inverse ps = some (o1, rcp_safe s1) ∧
    calc_uv_offset_and_scale_inverse cs = some (o2, (rcp_safe s2.1, rcp_safe s2.2)) ∧
    (∀ s : ℚ, (s = 0 → rcp_safe s = 0) ∧ (0 < s → rcp_safe s = 1 / s)) := by
  refine ⟨?_, ?_, ?_⟩
  · simp [calc_pos_offset_and_scale_inverse, h1]
  · simp [calc_uv_offset_and_scale_inverse, h2]
  · intro s
    constructor
    · intro hs; simp [rcp_safe, hs]
    · intro hs; simp [rcp_safe, ne_of_gt hs]

/-- Witness for C5 at concrete inputs (a single position and a single UV). -/
theorem claim_c5_inverse_safe_reciprocal_witness :
    calc_pos_offset_and_scale_inverse [0, 0, 0] = some ((0, 0, 0), rcp_safe 0) ∧
    calc_uv_offset_and_scale_inverse [0, 0] =
      some ((0, 0), (rcp_safe f32Max, rcp_safe f32Max)) ∧
    (∀ s : ℚ, (s = 0 → rcp_safe s = 0) ∧ (0 < s → rcp_safe s = 1 / s)) :=
  claim_c5_inverse_safe_reciprocal [0, 0, 0] [0, 0] (0, 0, 0) 0 (0, 0) (f32Max, f32Max)
    (by decide) (by decide)

/-- C9: a position list whose length is not a multiple of 3 makes
`calc_pos_offset_and_scale` panic on the partial final chunk (modelled as
`none`), and an odd-length UV list likewise makes `calc_uv_offset_and_scale`
panic. -/
theorem claim_c9_partial_chunk_panics (ps cs : List ℚ)
    (h3 : ¬ 3 ∣ ps.length) (h2 : ¬ 2 ∣ cs.length) :
    calc_pos_offset_and_scale ps = none ∧ calc_uv_offset_and_scale cs = none := by
  constructor
  · unfold calc_pos_offset_and_scale
    rw [foldF3_none _ _ _ h3]
  · unfold calc_uv_offset_and_scale
    rw [foldF2_none _ _ _ h2]

/-- Witness for C9 at one-element lists. -/
theorem claim_c9_partial_chunk_panics_witness :
    calc_pos_offset_and_scale [1] = none ∧ calc_uv_offset_and_scale [1] = none :=
  claim_c9_partial_chunk_panics [1] [1] (by decide) (by decide)

/-- C10: on the empty slice both helpers are total and return their fold
seeds: offset `[f32::MAX; _]`, scale `0` for positions and `[f32::MAX; 2]`
(that fold's seed) for UVs. -/
theorem claim_c10_empty_input_returns_seeds :
    calc_pos_offset_and_scale [] = some ((f32Max, f32Max, f32Max), 0) ∧
    calc_uv_offset_and_scale [] = some ((f32Max, f32Max), (f32Max, f32Max)) := by
  exact ⟨rfl, rfl⟩

/-- First index of `v` in a list, if present (the FIFO lookup used by the
prediction tables). -/
def findIdx {α : Type} [DecidableEq α] (v : α) : List α → Option Nat
  | [] => none
  | x :: xs => if x = v then some 0 else (findIdx v xs).map (· + 1)

/-- Zigzag mapping from signed deltas to naturals (small magnitudes first). -/
def zigzag (d : Int) : Nat := if 0 ≤ d then 2 * d.toNat else 2 * (-d).toNat - 1

/-- Inverse of `zigzag`. -/
def unzigzag (n : Nat) : Int :=
  if n % 2 = 0 then ((n / 2 : Nat) : Int) else -(((n / 2 : Nat) : Int) + 1)

/-- Fuel-driven base-128 varint encoder (fuel `≥ n` always suffices). -/
def varintEncAux : Nat → Nat → List Nat
  | 0, n => [n % 128]
  | f + 1, n => if n < 128 then [n] else (n % 128 + 128) :: varintEncAux f (n / 128)

/-- Little-endian base-128 varint encoding with continuation bit. -/
def varintEnc (n : Nat) : List Nat := varintEncAux n n

/-- Varint decoder: consumes continuation-flagged bytes off the front. -/
def varintDec : List Nat → Option (Nat × List Nat)
  | [] => none
  | b :: rest =>
    if b < 128 then some (b, rest)
    else
      match varintDec rest with
      | some (m, r) => some (b - 128 + 128 * m, r)
      | none => none

/-- Modelled from the spec: the rolling prediction state of the index codec —
a fixed-capacity FIFO of recently seen triangles keyed by an edge (vertex pair)
mapped to the third vertex, a fixed-capacity FIFO of recently used vertices,
and the last emitted vertex used as the base for literal deltas. Both codec
ends maintain this state identically ("decoding replays the same two
prediction tables in the same deterministic order"). -/
structure IdxState where
  edges : List ((Nat × Nat) × Nat)
  verts : List Nat
  last : Nat

/-- Capacity of both prediction FIFOs (a "small fixed-size FIFO"). -/
def fifoCap : Nat := 16

/-- The seeded initial state ("tables seeded to a known initial state"). -/
def idxState0 : IdxState := ⟨[], [], 0⟩

/-- Deterministic state update applied after each triangle, on both the
encoder and the decoder side. -/
def idxUpdState (s : IdxState) (t : Nat × Nat × Nat) : IdxState :=
  ⟨(((t.1, t.2.1), t.2.2) :: s.edges).take fifoCap,
   (t.1 :: t.2.1 :: t.2.2 :: s.verts).take fifoCap,
   t.2.2⟩

/-- Modelled from the spec: a single vertex is emitted as a FIFO back-reference
byte (`< fifoCap`) when the vertex is in the vertex FIFO, and otherwise as the
literal marker `254` followed by the zigzag varint of its delta from the last
emitted vertex ("FIFO hit → short code; cold-start/fallback → literal vertex
deltas"). -/
def encVert (s : IdxState) (v : Nat) : List Nat :=
  match findIdx v s.verts with
  | some k => [k]
  | none => 254 :: varintEnc (zigzag ((v : Int) - (s.last : Int)))

/-- Decoder counterpart of `encVert`; any structurally invalid byte is a
format error (`none`). -/
def decVert (s : IdxState) : List Nat → Option (Nat × List Nat)
  | [] => none
  | b :: rest =>
    if b < fifoCap then
      match s.verts.get? b with
      | some v => some (v, rest)
      | none => none
    else if b = 254 then
      match varintDec rest with
      | some (m, r) =>
        if 0 ≤ (s.last : Int) + unzigzag m then
          some (((s.last : Int) + unzigzag m).toNat, r)
        else none
      | none => none
    else none

/-- Modelled from the spec: a triangle matching an edge-table entry exactly is
emitted as a single code byte indexing that entry ("full edge match → 1 code
byte"); otherwise the fallback tag `255` followed by the three vertex codes. -/
def encTri (s : IdxState) (t : Nat × Nat × Nat) : List Nat :=
  match findIdx ((t.1, t.2.1), t.2.2) s.edges with
  | some j => [j]
  | none => 255 :: (encVert s t.1 ++ encVert s t.2.1 ++ encVert s t.2.2)

/-- Decoder counterpart of `encTri`. -/
def decTri (s : IdxState) : List Nat → Option ((Nat × Nat × Nat) × List Nat)
  | [] => none
  | b :: rest =>
    if b < fifoCap then
      match s.edges.get? b with
      | some e => some ((e.1.1, e.1.2, e.2), rest)
      | none => none
    else if b = 255 then
      match decVert s rest with
      | some (a, r1) =>
        match decVert s r1 with
        | some (b2, r2) =>
          match decVert s r2 with
          | some (c, r3) => some ((a, b2, c), r3)
          | none => none
        | none => none
      | none => none
    else none

/-- Encodes a triangle list, threading the prediction state. -/
def encTris (s : IdxState) : List (Nat × Nat × Nat) → List Nat
  | [] => []
  | t :: ts => encTri s t ++ encTris (idxUpdState s t) ts

/-- Decodes `n` triangles, threading the prediction state identically. -/
def decTris (s : IdxState) : Nat → List Nat → Option (List (Nat × Nat × Nat) × List Nat)
  | 0, bytes => some ([], bytes)
  | n + 1, bytes =>
    match decTri s bytes with
    | some (t, rest) =>
      match decTris (idxUpdState s t) n rest with
      | some (ts, r) => some (t :: ts, r)
      | none => none
    | none => none

/-- Groups a flat index list into triangles (meaningful when the length is a
multiple of 3). -/
def toTriples : List Nat → List (Nat × Nat × Nat)
  | a :: b :: c :: rest => (a, b, c) :: toTriples rest
  | _ => []

/-- Flattens a triangle list back to a flat index list. -/
def ofTriples : List (Nat × Nat × Nat) → List Nat
  | [] => []
  | t :: ts => t.1 :: t.2.1 :: t.2.2 :: ofTriples ts

/-- The index blob's leading version/format tag byte. -/
def indexCodecVersion : Nat := 224

/-- Result of a decode call: a contract violation (Rust panic from the wrapper
assert), a format error (non-zero FFI result code), or a fully populated
output vector. -/
inductive DecodeResult (α : Type) where
  | contractViolation
  | formatError
  | ok (values : List α)
deriving DecidableEq

/-- Modelled from the spec: `encode_index_buffer` — triangle count must be
whole (index count a multiple of 3, a precondition), output is a version tag
byte followed by the per-triangle codes. -/
def encode_index_buffer (indices : List Nat) (vertex_count : Nat) : Option (List Nat) :=
  if 3 ∣ indices.length then
    some (indexCodecVersion :: encTris idxState0 (toTriples indices))
  else none

/-- Modelled from the spec: worst-case encoded size — a fixed header byte plus
a per-triangle constant (tag byte plus three vertex codes, each at most a
marker byte and the varint of a delta bounded by `2 * vertex_count`). -/
def encode_index_buffer_bound (index_count vertex_count : Nat) : Nat :=
  1 + (index_count / 3) * (4 + 3 * (varintEnc (2 * vertex_count)).length)

/-- Modelled from the spec: `decode_index_buffer` — the output element width
must be 2 or 4 (checked before any decoding work, as the wrapper's
`assert_valid_size` does in `src/encoding.rs`), the version byte must match,
the whole input must be consumed, and decoded indices are stored to the
output element width. -/
def decode_index_buffer (tsize : Nat) (encoded : List Nat) (index_count : Nat) :
    DecodeResult Nat :=
  if tsize = 2 ∨ tsize = 4 then
    if 3 ∣ index_count then
      match encoded with
      | b :: rest =>
        if b = indexCodecVersion then
          match decTris idxState0 (index_count / 3) rest with
          | some (ts, []) =>
            DecodeResult.ok ((ofTriples ts).map (fun v => v % 2 ^ (8 * tsize)))
          | some (_, _ :: _) => DecodeResult.formatError
          | none => DecodeResult.formatError
        else DecodeResult.formatError
      | [] => DecodeResult.formatError
    else DecodeResult.formatError
  else DecodeResult.contractViolation

lemma varintEncAux_congr : ∀ (f g n : Nat), n ≤ f → n ≤ g →
    varintEncAux f n = varintEncAux g n
  | 0, g, n, hf, _ => by
      have hn : n = 0 := by omega
      subst hn
      cases g with
      | zero => rfl
      | succ g => simp [varintEncAux]
  | f + 1, g, n, hf, hg => by
      by_cases h : n < 128
      · cases g with
        | zero =>
          have hn : n = 0 := by omega
          subst hn
          simp [varintEncAux]
        | succ g => simp [varintEncAux, h]
      · obtain ⟨g', rfl⟩ : ∃ g', g = g' + 1 := ⟨g - 1, by omega⟩
        simp only [varintEncAux, h, if_false]
        rw [varintEncAux_congr f g' (n / 128) (by omega) (by omega)]

lemma varintEnc_eq (n : Nat) : varintEnc n =
    if n < 128 then [n] else (n % 128 + 128) :: varintEnc (n / 128) := by
  unfold varintEnc
  by_cases h : n < 128
  · cases n with
    | zero => simp [varintEncAux]
    | succ k => simp [varintEncAux, h]
  · obtain ⟨k, rfl⟩ : ∃ k, n = k + 1 := ⟨n - 1, by omega⟩
    simp only [varintEncAux, h, if_false, List.cons.injEq, true_and]
    exact varintEncAux_congr k ((k + 1) / 128) ((k + 1) / 128) (by omega) le_rfl

lemma varintDec_enc (n : Nat) (rest : List Nat) :
    varintDec (varintEnc n ++ rest) = some (n, rest) := by
  induction n using Nat.strong_induction_on generalizing rest with
  | _ n ih =>
    rw [varintEnc_eq]
    by_cases h : n < 128
    · simp [h, varintDec]
    · have h128 : ¬ (n % 128 + 128 < 128) := by omega
      simp only [h, if_false, List.cons_append, varintDec, h128]
      rw [ih (n / 128) (by omega)]
      simp
      omega

lemma varintEnc_length_mono (n m : Nat) (h : n ≤ m) :
    (varintEnc n).length ≤ (varintEnc m).length := by
  induction m using Nat.strong_induction_on generalizing n with
  | _ m ih =>
    rw [varintEnc_eq n, varintEnc_eq m]
    by_cases hm : m < 128
    · have hn : n < 128 := by omega
      simp [hn, hm]
    · by_cases hn : n < 128
      · simp only [hn, if_true, hm, if_false, List.length_cons, List.length_nil]
        omega
      · simp only [hn, hm, if_false, List.length_cons]
        have := ih (m / 128) (by omega) (n / 128) (by omega)
        omega

lemma findIdx_lt_length {α : Type} [DecidableEq α] (v : α) :
    ∀ (l : List α) (k : Nat), findIdx v l = some k → k < l.length
  | [], k, h => by simp [findIdx] at h
  | x :: xs, k, h => by
      simp only [findIdx] at h
      split at h
      · cases h; simp
      · match hx : findIdx v xs with
        | some k' =>
          rw [hx] at h
          simp only [Option.map_some', Option.some.injEq] at h
          subst h
          have := findIdx_lt_length v xs k' hx
          simp only [List.length_cons]
          omega
        | none => rw [hx] at h; simp at h

lemma findIdx_get? {α : Type} [DecidableEq α] (v : α) :
    ∀ (l : List α) (k : Nat), findIdx v l = some k → l.get? k = some v
  | [], k, h => by simp [findIdx] at h
  | x :: xs, k, h => by
      simp only [findIdx] at h
      split at h
      · cases h
        simp only [List.get?]
        congr 1
      · match hx : findIdx v xs with
        | some k' =>
          rw [hx] at h
          simp only [Option.map_some', Option.some.injEq] at h
          subst h
          simpa [List.get?] using findIdx_get? v xs k' hx
        | none => rw [hx] at h; simp at h

lemma unzigzag_zigzag (d : Int) : unzigzag (zigzag d) = d := by
  unfold zigzag unzigzag
  by_cases h : 0 ≤ d
  · have h2 : (2 * d.toNat) % 2 = 0 := by omega
    simp only [h, if_true, h2]
    omega
  · have hd : 1 ≤ (-d).toNat := by omega
    have h2 : (2 * (-d).toNat - 1) % 2 = 1 := by omega
    simp only [h, if_false, h2]
    omega

lemma decVert_encVert (s : IdxState) (hv : s.verts.length ≤ fifoCap)
    (v : Nat) (rest : List Nat) :
    decVert s (encVert s v ++ rest) = some (v, rest) := by
  unfold encVert
  match hf : findIdx v s.verts with
  | some k =>
    have hk : k < s.verts.length := findIdx_lt_length _ _ _ hf
    have hkc : k < fifoCap := lt_of_lt_of_le hk hv
    simp only [List.cons_append, List.nil_append, decVert, hkc, if_true]
    rw [findIdx_get? _ _ _ hf]
  | none =>
    have h1 : ¬ (254 < fifoCap) := by simp [fifoCap]
    simp only [List.cons_append, decVert, h1, if_false, if_true]
    rw [varintDec_enc]
    simp only [unzigzag_zigzag]
    have h2 : (s.last : Int) + ((v : Int) - (s.last : Int)) = (v : Int) := by ring
    rw [h2]
    simp

lemma decTri_encTri (s : IdxState) (he : s.edges.length ≤ fifoCap)
    (hv : s.verts.length ≤ fifoCap) (t : Nat × Nat × Nat) (rest : List Nat) :
    decTri s (encTri s t ++ rest) = some (t, rest) := by
  unfold encTri
  match hf : findIdx ((t.1, t.2.1), t.2.2) s.edges with
  | some j =>
    have hj : j < s.edges.length := findIdx_lt_length _ _ _ hf
    have hjc : j < fifoCap := lt_of_lt_of_le hj he
    simp only [List.cons_append, List.nil_append, decTri, hjc, if_true]
    rw [findIdx_get? _ _ _ hf]
  | none =>
    have h1 : ¬ (255 < fifoCap) := by simp [fifoCap]
    simp only [List.cons_append, List.append_assoc, decTri, h1, if_false, if_true]
    simp only [decVert_encVert s hv]

lemma idxUpdState_edges_le (s : IdxState) (t : Nat × Nat × Nat) :
    (idxUpdState s t).edges.length ≤ fifoCap := by
  simp only [idxUpdState]
  exact List.length_take_le _ _

lemma idxUpdState_verts_le (s : IdxState) (t : Nat × Nat × Nat) :
    (idxUpdState s t).verts.length ≤ fifoCap := by
  simp only [idxUpdState]
  exact List.length_take_le _ _

lemma decTris_encTris : ∀ (ts : List (Nat × Nat × Nat)) (s : IdxState),
    s.edges.length ≤ fifoCap → s.verts.length ≤ fifoCap → ∀ (tail : List Nat),
    decTris s ts.length (encTris s ts ++ tail) = some (ts, tail)
  | [], s, _, _, tail => rfl
  | t :: ts, s, he, hv, tail => by
      simp only [encTris, List.length_cons, List.append_assoc, decTris]
      simp only [decTri_encTri s he hv]
      simp only [decTris_encTris ts (idxUpdState s t) (idxUpdState_edges_le s t)
        (idxUpdState_verts_le s t) tail]

lemma ofTriples_toTriples : ∀ (l : List Nat), 3 ∣ l.length →
    ofTriples (toTriples l) = l
  | [], _ => rfl
  | [a], h => by simp at h
  | [a, b], h => by simp at h; omega
  | a :: b :: c :: rest, h => by
      simp only [toTriples, ofTriples]
      rw [ofTriples_toTriples rest (by simp only [List.length_cons] at h; omega)]

lemma toTriples_length : ∀ (l : List Nat), (toTriples l).length = l.length / 3
  | [] => rfl
  | [a] => by simp [toTriples]
  | [a, b] => by simp [toTriples]
  | a :: b :: c :: rest => by
      simp only [toTriples, List.length_cons]
      rw [toTriples_length rest]
      omega

/-- C2: encode-then-decode round trip of the index codec — for any triangle
index list with values below a vertex count within the codec's 32-bit width
limit, encoding succeeds and decoding (into 4-byte elements) reproduces the
input exactly. -/
theorem claim_c2_index_roundtrip (I : List Nat) (V : Nat)
    (hlen : 3 ∣ I.length) (hvals : ∀ v ∈ I, v < V) (hV : V ≤ 2 ^ 32) :
    (encode_index_buffer I V).isSome = true ∧
    decode_index_buffer 4 ((encode_index_buffer I V).getD []) I.length =
      DecodeResult.ok I := by
  have henc : encode_index_buffer I V =
      some (indexCodecVersion :: encTris idxState0 (toTriples I)) := by
    simp [encode_index_buffer, hlen]
  refine ⟨by rw [henc]; rfl, ?_⟩
  rw [henc]
  have hdec : decTris idxState0 (I.length / 3) (encTris idxState0 (toTriples I)) =
      some (toTriples I, []) := by
    conv_lhs =>
      rw [show encTris idxState0 (toTriples I) =
            encTris idxState0 (toTriples I) ++ [] by simp,
        ← toTriples_length I]
    exact decTris_encTris _ _ (by simp [idxState0, fifoCap]) (by simp [idxState0, fifoCap]) []
  have hmap : List.map (fun v => v % 4294967296) I = I := by
    have hcong : ∀ v ∈ I, v % 4294967296 = v := by
      intro v hv
      exact Nat.mod_eq_of_lt (lt_of_lt_of_le (hvals v hv) (by norm_num at hV ⊢; omega))
    rw [List.map_congr_left hcong, List.map_id']
  simp [decode_index_buffer, hlen, hdec, ofTriples_toTriples I hlen, hmap]

/-- Witness for C2 at the spec's concrete scenario: indices `[0,1,2, 1,2,3]`
with `vertex_count = 4`. -/
theorem claim_c2_index_roundtrip_witness :
    (encode_index_buffer [0, 1, 2, 1, 2, 3] 4).isSome = true ∧
    decode_index_buffer 4 ((encode_index_buffer [0, 1, 2, 1, 2, 3] 4).getD [])
      ([0, 1, 2, 1, 2, 3] : List Nat).length = DecodeResult.ok [0, 1, 2, 1, 2, 3] :=
  claim_c2_index_roundtrip [0, 1, 2, 1, 2, 3] 4 (by decide) (by decide) (by decide)

/-- C8: `decode_index_buffer` rejects any output element width other than 2 or
4 as a contract violation (the wrapper's `assert_valid_size` panic), before any
decoding work — regardless of the encoded bytes and the index count. -/
theorem claim_c8_decode_width_contract (tsize : Nat) (encoded : List Nat)
    (index_count : Nat) (h2 : tsize ≠ 2) (h4 : tsize ≠ 4) :
    decode_index_buffer tsize encoded index_count =
      DecodeResult.contractViolation := by
  unfold decode_index_buffer
  rw [if_neg]
  rintro (h | h)
  · exact h2 h
  · exact h4 h

/-- Witness for C8 at width 3. -/
theorem claim_c8_decode_width_contract_witness :
    decode_index_buffer 3 [224] 6 = DecodeResult.contractViolation :=
  claim_c8_decode_width_contract 3 [224] 6 (by decide) (by decide)

lemma zigzag_sub_le (v last V : Nat) (hv : v < V) (hl : last < V) :
    zigzag ((v : Int) - (last : Int)) ≤ 2 * V := by
  unfold zigzag
  split <;> omega

lemma encVert_length_le (s : IdxState) (v V : Nat) (hl : s.last < V) (hv : v < V) :
    (encVert s v).length ≤ 1 + (varintEnc (2 * V)).length := by
  unfold encVert
  match findIdx v s.verts with
  | some k => simp only [List.length_cons, List.length_nil]; omega
  | none =>
    simp only [List.length_cons]
    have h1 := varintEnc_length_mono _ _ (zigzag_sub_le v s.last V hv hl)
    omega

lemma encTri_length_le (s : IdxState) (t : Nat × Nat × Nat) (V : Nat)
    (hl : s.last < V) (h1 : t.1 < V) (h2 : t.2.1 < V) (h3 : t.2.2 < V) :
    (encTri s t).length ≤ 4 + 3 * (varintEnc (2 * V)).length := by
  unfold encTri
  match findIdx ((t.1, t.2.1), t.2.2) s.edges with
  | some j => simp only [List.length_cons, List.length_nil]; omega
  | none =>
    simp only [List.length_cons, List.length_append]
    have e1 := encVert_length_le s t.1 V hl h1
    have e2 := encVert_length_le s t.2.1 V hl h2
    have e3 := encVert_length_le s t.2.2 V hl h3
    omega

lemma encTris_length_le : ∀ (ts : List (Nat × Nat × Nat)) (s : IdxState) (V : Nat),
    s.last < V → (∀ t ∈ ts, t.1 < V ∧ t.2.1 < V ∧ t.2.2 < V) →
    (encTris s ts).length ≤ ts.length * (4 + 3 * (varintEnc (2 * V)).length)
  | [], _, _, _, _ => by simp [encTris]
  | t :: ts, s, V, hl, hts => by
      simp only [encTris, List.length_append, List.length_cons]
      have hmem := hts t (List.mem_cons_self t ts)
      have h1 := encTri_length_le s t V hl hmem.1 hmem.2.1 hmem.2.2
      have hl' : (idxUpdState s t).last < V := by
        simp only [idxUpdState]
        exact hmem.2.2
      have h2 := encTris_length_le ts (idxUpdState s t) V hl'
        (fun u hu => hts u (List.mem_cons_of_mem t hu))
      rw [Nat.succ_mul]
      omega

lemma toTriples_mem : ∀ (l : List Nat) (t : Nat × Nat × Nat), t ∈ toTriples l →
    t.1 ∈ l ∧ t.2.1 ∈ l ∧ t.2.2 ∈ l
  | [], t, h => by simp [toTriples] at h
  | [a], t, h => by simp [toTriples] at h
  | [a, b], t, h => by simp [toTriples] at h
  | a :: b :: c :: rest, t, h => by
      simp only [toTriples, List.mem_cons] at h
      rcases h with h | h
      · subst h
        simp
      · have := toTriples_mem rest t h
        refine ⟨?_, ?_, ?_⟩ <;> simp [List.mem_cons, this.1, this.2.1, this.2.2]

lemma decTris_length : ∀ (n : Nat) (s : IdxState) (bytes : List Nat)
    (ts : List (Nat × Nat × Nat)) (r : List Nat),
    decTris s n bytes = some (ts, r) → ts.length = n
  | 0, s, bytes, ts, r, h => by
      simp only [decTris, Option.some.injEq, Prod.mk.injEq] at h
      rw [← h.1]
      rfl
  | n + 1, s, bytes, ts, r, h => by
      simp only [decTris] at h
      match h1 : decTri s bytes with
      | none => simp [h1] at h
      | some (t, rest) =>
        simp only [h1] at h
        match h2 : decTris (idxUpdState s t) n rest with
        | none => simp [h2] at h
        | some (ts', r') =>
          simp only [h2, Option.some.injEq, Prod.mk.injEq] at h
          rw [← h.1]
          simp only [List.length_cons]
          rw [decTris_length n _ _ _ _ h2]

lemma ofTriples_length : ∀ (ts : List (Nat × Nat × Nat)),
    (ofTriples ts).length = 3 * ts.length
  | [] => rfl
  | t :: ts => by
      simp only [ofTriples, List.length_cons]
      rw [ofTriples_length ts]
      omega

/-- Block size of the vertex codec ("process the byte-record stream in
fixed-size blocks"). -/
def vertexBlockSize : Nat := 16

/-- The vertex blob's leading version/format tag byte. -/
def vertexCodecVersion : Nat := 160

/-- Per-channel deltas of a byte column from the previous record's byte
(wrap-around modulo 256). -/
def deltasFrom (p : Nat) : List Nat → List Nat
  | [] => []
  | x :: xs => (256 + x - p) % 256 :: deltasFrom x xs

/-- Inverse of `deltasFrom`: rebuild a byte column by accumulating deltas onto
the previous record's byte, modulo 256. -/
def undeltas (p : Nat) : List Nat → List Nat
  | [] => []
  | d :: ds => (p + d) % 256 :: undeltas ((p + d) % 256) ds

/-- Modelled from the spec: per-channel selector plus packed payload. The
selector ladder of this implementation (the exact ladder is an explicitly
implementation-defined format detail) has two rungs: selector `0` — all deltas
in the block are zero, no payload; selector `1` — literal delta bytes. -/
def encCol (ds : List Nat) : List Nat :=
  if ds.all (fun d => d == 0) then [0] else 1 :: ds

/-- Encodes all byte channels of one block: channel `c` is the `c`-th byte of
every record in the block, delta-coded against the previous record and emitted
behind its selector; channels are peeled off the records left to right and the
previous record drives the channel count. -/
def encChannels : List Nat → List (List Nat) → List Nat
  | [], _ => []
  | p :: ps, blk =>
    encCol (deltasFrom p (blk.map (fun r => r.headD 0))) ++
      encChannels ps (blk.map List.tail)

/-- Decoder counterpart of `encChannels`: reads each channel's selector and
payload, undoes the delta coding against the previous record, and zips the
reconstructed columns back into `bl` records. -/
def decChannels : List Nat → Nat → List Nat → Option (List (List Nat) × List Nat)
  | [], bl, bytes => some (List.replicate bl [], bytes)
  | p :: ps, bl, bytes =>
    match bytes with
    | [] => none
    | sel :: rest =>
      if sel = 0 then
        match decChannels ps bl rest with
        | some (rows, r) =>
          some (List.zipWith List.cons (undeltas p (List.replicate bl 0)) rows, r)
        | none => none
      else if sel = 1 then
        if bl ≤ rest.length then
          match decChannels ps bl (rest.drop bl) with
          | some (rows, r) =>
            some (List.zipWith List.cons (undeltas p (rest.take bl)) rows, r)
          | none => none
        else none
      else none

/-- Modelled from the spec: block loop of the vertex encoder — blocks of
`vertexBlockSize` records, each encoded channel-wise against the previous
record (initially a zero record), with the block's last record becoming the
next block's predecessor. Fuel-driven (`fuel ≥ records.length` suffices). -/
def encVtxAux : Nat → List Nat → List (List Nat) → List Nat
  | _, _, [] => []
  | 0, _, _ :: _ => []
  | f + 1, prev, r :: rs =>
    encChannels prev ((r :: rs).take vertexBlockSize) ++
      encVtxAux f (((r :: rs).take vertexBlockSize).getLastD prev)
        ((r :: rs).drop vertexBlockSize)

/-- Block loop of the vertex encoder at its natural fuel. -/
def encVtxBlocks (prev : List Nat) (records : List (List Nat)) : List Nat :=
  encVtxAux records.length prev records

/-- Decoder counterpart of `encVtxAux`, consuming `count` records block by
block. Fuel-driven (`fuel ≥ count` suffices). -/
def decVtxAux : Nat → List Nat → Nat → List Nat → Option (List (List Nat) × List Nat)
  | _, _, 0, bytes => some ([], bytes)
  | 0, _, _ + 1, _ => none
  | f + 1, prev, count, bytes =>
    match decChannels prev (min vertexBlockSize count) bytes with
    | some (blk, rest) =>
      match decVtxAux f (blk.getLastD prev) (count - min vertexBlockSize count) rest with
      | some (rs, r) => some (blk ++ rs, r)
      | none => none
    | none => none

/-- Block loop of the vertex decoder at its natural fuel. -/
def decVtxBlocks (prev : List Nat) (count : Nat) (bytes : List Nat) :
    Option (List (List Nat) × List Nat) :=
  decVtxAux count prev count bytes

/-- Modelled from the spec: `encode_vertex_buffer` — records of one fixed byte
width (a supported width: positive and below 256 so it fits the header), output
is a version tag byte, the record width, and the per-block channel codes. -/
def encode_vertex_buffer (size : Nat) (vertices : List (List Nat)) : Option (List Nat) :=
  if 0 < size ∧ size < 256 then
    some (vertexCodecVersion :: size :: encVtxBlocks (List.replicate size 0) vertices)
  else none

/-- Modelled from the spec: worst-case encoded size — two header bytes plus,
per block, one selector byte and at most a block's worth of literal payload
for each of the `vertex_size` channels. -/
def encode_vertex_buffer_bound (vertex_count vertex_size : Nat) : Nat :=
  2 + ((vertex_count + vertexBlockSize - 1) / vertexBlockSize) *
      (vertex_size * (1 + vertexBlockSize))

/-- Modelled from the spec: `decode_vertex_buffer` — the version byte and the
stored record width must match the caller's element type ("record width
mismatch between encode and decode calls" is a format error), the whole input
must be consumed, and exactly `vertex_count` records are produced. -/
def decode_vertex_buffer (size : Nat) (encoded : List Nat) (vertex_count : Nat) :
    DecodeResult (List Nat) :=
  match encoded with
  | v :: w :: rest =>
    if v = vertexCodecVersion ∧ w = size ∧ 0 < size ∧ size < 256 then
      match decVtxBlocks (List.replicate size 0) vertex_count rest with
      | some (rs, []) => DecodeResult.ok rs
      | some (_, _ :: _) => DecodeResult.formatError
      | none => DecodeResult.formatError
    else DecodeResult.formatError
  | _ => DecodeResult.formatError

lemma undeltas_deltasFrom : ∀ (xs : List Nat) (p : Nat), p < 256 →
    (∀ x ∈ xs, x < 256) → undeltas p (deltasFrom p xs) = xs
  | [], _, _, _ => rfl
  | x :: xs, p, hp, hxs => by
      have hx : x < 256 := hxs x (List.mem_cons_self x xs)
      have hh : (p + (256 + x - p) % 256) % 256 = x := by omega
      simp only [deltasFrom, undeltas, hh]
      rw [undeltas_deltasFrom xs x hx (fun y hy => hxs y (List.mem_cons_of_mem x hy))]

lemma deltasFrom_length : ∀ (xs : List Nat) (p : Nat),
    (deltasFrom p xs).length = xs.length
  | [], _ => rfl
  | x :: xs, p => by
      simp only [deltasFrom, List.length_cons]
      rw [deltasFrom_length xs x]

lemma undeltas_length : ∀ (ds : List Nat) (p : Nat),
    (undeltas p ds).length = ds.length
  | [], _ => rfl
  | d :: ds, p => by
      simp only [undeltas, List.length_cons]
      rw [undeltas_length ds]

lemma zipCons_head_tail : ∀ (blk : List (List Nat)), (∀ r ∈ blk, r ≠ []) →
    List.zipWith List.cons (blk.map (fun r => r.headD 0)) (blk.map List.tail) = blk
  | [], _ => rfl
  | r :: blk, h => by
      match r with
      | [] => exact absurd rfl (h [] (List.mem_cons_self [] blk))
      | x :: xs =>
        simp only [List.map_cons, List.zipWith_cons_cons, List.headD_cons, List.tail_cons]
        rw [zipCons_head_tail blk (fun u hu => h u (List.mem_cons_of_mem _ hu))]

lemma all_zero_eq_replicate (ds : List Nat) (h : ds.all (fun d => d == 0) = true) :
    ds = List.replicate ds.length 0 := by
  induction ds with
  | nil => rfl
  | cons d ds ih =>
    simp only [List.all_cons, Bool.and_eq_true, beq_iff_eq] at h
    simp only [List.length_cons, List.replicate_succ, h.1, List.cons.injEq, true_and]
    exact ih h.2

lemma decChannels_encChannels : ∀ (prev : List Nat) (blk : List (List Nat)) (rest : List Nat),
    (∀ x ∈ prev, x < 256) →
    (∀ r ∈ blk, r.length = prev.length ∧ ∀ b ∈ r, b < 256) →
    decChannels prev blk.length (encChannels prev blk ++ rest) = some (blk, rest)
  | [], blk, rest, _, hblk => by
      have hb : blk = List.replicate blk.length ([] : List Nat) := by
        refine List.eq_replicate_iff.mpr ⟨rfl, fun r hr => ?_⟩
        have := (hblk r hr).1
        simpa [List.length_eq_zero] using this
      simp only [encChannels, List.nil_append, decChannels]
      rw [← hb]
  | p :: ps, blk, rest, hprev, hblk => by
      have hp : p < 256 := hprev p (List.mem_cons_self p ps)
      have hps : ∀ x ∈ ps, x < 256 := fun x hx => hprev x (List.mem_cons_of_mem p hx)
      have hcol : ∀ x ∈ blk.map (fun r => r.headD 0), x < 256 := by
        intro x hx
        obtain ⟨r, hr, hrx⟩ := List.mem_map.mp hx
        have hrne : r ≠ [] := by
          intro he
          have := (hblk r hr).1
          rw [he] at this
          simp only [List.length_nil, List.length_cons] at this
          omega
        obtain ⟨y, ys, rfl⟩ := List.exists_cons_of_ne_nil hrne
        simp only [List.headD_cons] at hrx
        exact hrx ▸ (hblk _ hr).2 y (List.mem_cons_self y ys)
      have htail : ∀ r ∈ blk.map List.tail, r.length = ps.length ∧ ∀ b ∈ r, b < 256 := by
        intro r hr
        obtain ⟨u, hu, hur⟩ := List.mem_map.mp hr
        subst hur
        constructor
        · have := (hblk u hu).1
          simp only [List.length_tail, this, List.length_cons]
          omega
        · intro b hb
          exact (hblk u hu).2 b (List.mem_of_mem_tail hb)
      have hcollen : (blk.map (fun r => r.headD 0)).length = blk.length := by
        simp
      have hdl : (deltasFrom p (blk.map (fun r => r.headD 0))).length = blk.length := by
        rw [deltasFrom_length, hcollen]
      have hrec := decChannels_encChannels ps (blk.map List.tail) rest hps htail
      have hreclen : (blk.map List.tail).length = blk.length := by simp
      have hne : ∀ r ∈ blk, r ≠ [] := by
        intro r hr he
        have := (hblk r hr).1
        rw [he] at this
        simp only [List.length_nil, List.length_cons] at this
        omega
      have hund : undeltas p (deltasFrom p (blk.map (fun r => r.headD 0))) =
          blk.map (fun r => r.headD 0) := undeltas_deltasFrom _ p hp hcol
      simp only [encChannels, encCol]
      split
      · -- selector 0: all deltas are zero
        next hall =>
        have hz : deltasFrom p (blk.map (fun r => r.headD 0)) =
            List.replicate blk.length 0 := by
          rw [all_zero_eq_replicate _ hall, hdl]
        simp only [List.cons_append, List.nil_append, decChannels, if_true]
        rw [hreclen] at hrec
        simp only [hrec]
        rw [← hz, hund, zipCons_head_tail blk hne]
      · -- selector 1: literal deltas
        next hall =>
        simp only [List.cons_append, decChannels, List.append_assoc]
        simp only [if_true]
        have hlen : blk.length ≤
            (deltasFrom p (blk.map (fun r => r.headD 0)) ++
              (encChannels ps (blk.map List.tail) ++ rest)).length := by
          simp only [List.length_append, hdl]
          omega
        rw [if_pos hlen]
        have htake : (deltasFrom p (blk.map (fun r => r.headD 0)) ++
            (encChannels ps (blk.map List.tail) ++ rest)).take blk.length =
            deltasFrom p (blk.map (fun r => r.headD 0)) := by
          rw [← hdl]
          exact List.take_left _ _
        have hdrop : (deltasFrom p (blk.map (fun r => r.headD 0)) ++
            (encChannels ps (blk.map List.tail) ++ rest)).drop blk.length =
            encChannels ps (blk.map List.tail) ++ rest := by
          rw [← hdl]
          exact List.drop_left _ _
        rw [htake, hdrop]
        rw [hreclen] at hrec
        simp only [hrec]
        rw [hund, zipCons_head_tail blk hne]
        simp

lemma getLastD_cases {α : Type} : ∀ (l : List α) (d : α),
    l.getLastD d = d ∨ l.getLastD d ∈ l
  | [], d => Or.inl rfl
  | x :: xs, d => by
      rw [List.getLastD_cons]
      rcases getLastD_cases xs x with h | h
      · right
        rw [h]
        exact List.mem_cons_self x xs
      · exact Or.inr (List.mem_cons_of_mem x h)

lemma decVtxAux_encVtxAux : ∀ (fuel : Nat) (records : List (List Nat))
    (prev : List Nat) (tail : List Nat),
    records.length ≤ fuel →
    (∀ x ∈ prev, x < 256) →
    (∀ r ∈ records, r.length = prev.length ∧ ∀ b ∈ r, b < 256) →
    decVtxAux fuel prev records.length (encVtxAux fuel prev records ++ tail) =
      some (records, tail)
  | fuel, [], prev, tail, _, _, _ => by
      cases fuel <;> rfl
  | 0, r :: rs, prev, tail, hf, _, _ => by
      simp only [List.length_cons] at hf
      omega
  | f + 1, r :: rs, prev, tail, hf, hprev, hrec => by
      have hblk : ∀ u ∈ (r :: rs).take vertexBlockSize,
          u.length = prev.length ∧ ∀ b ∈ u, b < 256 :=
        fun u hu => hrec u (List.mem_of_mem_take hu)
      have hblklen : ((r :: rs).take vertexBlockSize).length =
          min vertexBlockSize (rs.length + 1) := by
        rw [List.length_take, List.length_cons]
      have hprev' : ∀ x ∈ ((r :: rs).take vertexBlockSize).getLastD prev, x < 256 := by
        rcases getLastD_cases ((r :: rs).take vertexBlockSize) prev with h | h
        · rw [h]; exact hprev
        · exact fun x hx => (hblk _ h).2 x hx
      have hprevlen : (((r :: rs).take vertexBlockSize).getLastD prev).length =
          prev.length := by
        rcases getLastD_cases ((r :: rs).take vertexBlockSize) prev with h | h
        · rw [h]
        · exact (hblk _ h).1
      have hdroprec : ∀ u ∈ (r :: rs).drop vertexBlockSize,
          u.length = (((r :: rs).take vertexBlockSize).getLastD prev).length ∧
          ∀ b ∈ u, b < 256 := by
        intro u hu
        rw [hprevlen]
        exact hrec u (List.mem_of_mem_drop hu)
      have hlendrop : ((r :: rs).drop vertexBlockSize).length ≤ f := by
        simp only [List.length_drop, List.length_cons]
        simp only [List.length_cons] at hf
        have hB : 1 ≤ vertexBlockSize := by simp [vertexBlockSize]
        omega
      have hcount : rs.length + 1 - min vertexBlockSize (rs.length + 1) =
          ((r :: rs).drop vertexBlockSize).length := by
        simp only [List.length_drop, List.length_cons]
        omega
      have hrt := decChannels_encChannels prev ((r :: rs).take vertexBlockSize)
        (encVtxAux f (((r :: rs).take vertexBlockSize).getLastD prev)
          ((r :: rs).drop vertexBlockSize) ++ tail) hprev hblk
      rw [hblklen] at hrt
      have hih := decVtxAux_encVtxAux f ((r :: rs).drop vertexBlockSize)
        (((r :: rs).take vertexBlockSize).getLastD prev) tail hlendrop hprev' hdroprec
      simp only [List.length_cons]
      simp only [encVtxAux, decVtxAux, List.append_assoc]
      simp only [hrt]
      rw [hcount]
      simp only [hih]
      rw [List.take_append_drop]

/-- C3: encode-then-decode round trip of the vertex codec — for any record
stream of one supported byte width, encoding succeeds and decoding with the
same element width and `vertex_count = len(R)` reproduces the stream
exactly. -/
theorem claim_c3_vertex_roundtrip (W : Nat) (R : List (List Nat))
    (hW1 : 0 < W) (hW2 : W < 256)
    (hR : ∀ r ∈ R, r.length = W ∧ ∀ b ∈ r, b < 256) :
    (encode_vertex_buffer W R).isSome = true ∧
    decode_vertex_buffer W ((encode_vertex_buffer W R).getD []) R.length =
      DecodeResult.ok R := by
  have henc : encode_vertex_buffer W R =
      some (vertexCodecVersion :: W :: encVtxBlocks (List.replicate W 0) R) := by
    simp [encode_vertex_buffer, hW1, hW2]
  refine ⟨by rw [henc]; rfl, ?_⟩
  rw [henc]
  simp only [Option.getD_some]
  have hprev : ∀ x ∈ List.replicate W (0 : Nat), x < 256 := by
    intro x hx
    rw [List.eq_of_mem_replicate hx]
    omega
  have hrec : ∀ r ∈ R, r.length = (List.replicate W (0 : Nat)).length ∧
      ∀ b ∈ r, b < 256 := by
    intro r hr
    rw [List.length_replicate]
    exact hR r hr
  have hdec : decVtxBlocks (List.replicate W 0) R.length
      (encVtxBlocks (List.replicate W 0) R) = some (R, []) := by
    unfold decVtxBlocks encVtxBlocks
    rw [show encVtxAux R.length (List.replicate W 0) R =
      encVtxAux R.length (List.replicate W 0) R ++ [] by simp]
    exact decVtxAux_encVtxAux R.length R (List.replicate W 0) [] le_rfl hprev hrec
  simp [decode_vertex_buffer, hdec, hW1, hW2]

/-- Witness for C3: two 2-byte records. -/
theorem claim_c3_vertex_roundtrip_witness :
    (encode_vertex_buffer 2 [[7, 200], [9, 200]]).isSome = true ∧
    decode_vertex_buffer 2 ((encode_vertex_buffer 2 [[7, 200], [9, 200]]).getD [])
      ([[7, 200], [9, 200]] : List (List Nat)).length =
      DecodeResult.ok [[7, 200], [9, 200]] :=
  claim_c3_vertex_roundtrip 2 [[7, 200], [9, 200]] (by decide) (by decide) (by decide)

lemma encCol_length_le (ds : List Nat) : (encCol ds).length ≤ 1 + ds.length := by
  unfold encCol
  split
  · simp
  · simp only [List.length_cons]
    omega

lemma encChannels_length_le : ∀ (prev : List Nat) (blk : List (List Nat)),
    (encChannels prev blk).length ≤ prev.length * (1 + blk.length)
  | [], _ => by simp [encChannels]
  | p :: ps, blk => by
      simp only [encChannels, List.length_append, List.length_cons]
      have h1 := encCol_length_le (deltasFrom p (blk.map (fun r => r.headD 0)))
      have h2 := encChannels_length_le ps (blk.map List.tail)
      rw [deltasFrom_length] at h1
      simp only [List.length_map] at h1 h2
      rw [Nat.succ_mul]
      omega

lemma encVtxAux_length_le : ∀ (fuel : Nat) (prev : List Nat) (records : List (List Nat)),
    (∀ r ∈ records, r.length = prev.length) →
    (encVtxAux fuel prev records).length ≤
      ((records.length + vertexBlockSize - 1) / vertexBlockSize) *
        (prev.length * (1 + vertexBlockSize))
  | fuel, prev, [], _ => by cases fuel <;> simp [encVtxAux]
  | 0, prev, r :: rs, _ => by simp [encVtxAux]
  | f + 1, prev, r :: rs, hlen => by
      simp only [encVtxAux, List.length_append]
      have hprevlen : (((r :: rs).take vertexBlockSize).getLastD prev).length =
          prev.length := by
        rcases getLastD_cases ((r :: rs).take vertexBlockSize) prev with h | h
        · rw [h]
        · exact hlen _ (List.mem_of_mem_take h)
      have h1 := encChannels_length_le prev ((r :: rs).take vertexBlockSize)
      have h1' : (encChannels prev ((r :: rs).take vertexBlockSize)).length ≤
          prev.length * (1 + vertexBlockSize) := by
        refine h1.trans (Nat.mul_le_mul_left _ ?_)
        have := List.length_take_le vertexBlockSize (r :: rs)
        omega
      have h2 := encVtxAux_length_le f (((r :: rs).take vertexBlockSize).getLastD prev)
        ((r :: rs).drop vertexBlockSize)
        (fun u hu => by rw [hprevlen]; exact hlen u (List.mem_of_mem_drop hu))
      rw [hprevlen] at h2
      have hq : ((r :: rs).drop vertexBlockSize).length + vertexBlockSize - 1 =
          (r :: rs).length - 1 ∨ ((r :: rs).drop vertexBlockSize).length = 0 := by
        simp only [List.length_drop, List.length_cons]
        have hB : 1 ≤ vertexBlockSize := by simp [vertexBlockSize]
        omega
      have hqq : (((r :: rs).drop vertexBlockSize).length + vertexBlockSize - 1) /
            vertexBlockSize + 1 ≤
          ((r :: rs).length + vertexBlockSize - 1) / vertexBlockSize := by
        simp only [List.length_drop, List.length_cons, vertexBlockSize]
        omega
      calc (encChannels prev ((r :: rs).take vertexBlockSize)).length +
          (encVtxAux f (((r :: rs).take vertexBlockSize).getLastD prev)
            ((r :: rs).drop vertexBlockSize)).length
      _ ≤ prev.length * (1 + vertexBlockSize) +
          (((r :: rs).drop vertexBlockSize).length + vertexBlockSize - 1) /
            vertexBlockSize * (prev.length * (1 + vertexBlockSize)) := by
          omega
      _ = ((((r :: rs).drop vertexBlockSize).length + vertexBlockSize - 1) /
            vertexBlockSize + 1) * (prev.length * (1 + vertexBlockSize)) := by
          rw [Nat.succ_mul]
          omega
      _ ≤ ((r :: rs).length + vertexBlockSize - 1) / vertexBlockSize *
            (prev.length * (1 + vertexBlockSize)) :=
          Nat.mul_le_mul_right _ hqq

/-- C6: the byte length of every successful encode is at most the
corresponding bound query's value — `encode_index_buffer` against
`encode_index_buffer_bound` (for index lists whose values respect the given
vertex count) and `encode_vertex_buffer` against `encode_vertex_buffer_bound`
(for record streams of the given uniform width). -/
theorem claim_c6_encode_within_bounds (I : List Nat) (V : Nat)
    (W : Nat) (R : List (List Nat))
    (hvals : ∀ v ∈ I, v < V) (hR : ∀ r ∈ R, r.length = W) :
    (∀ bytes, encode_index_buffer I V = some bytes →
      bytes.length ≤ encode_index_buffer_bound I.length V) ∧
    (∀ bytes, encode_vertex_buffer W R = some bytes →
      bytes.length ≤ encode_vertex_buffer_bound R.length W) := by
  constructor
  · intro bytes henc
    unfold encode_index_buffer at henc
    split at henc
    case isFalse => exact absurd henc (by simp)
    case isTrue hlen =>
      have hb : bytes = indexCodecVersion :: encTris idxState0 (toTriples I) := by
        simpa using henc.symm
      subst hb
      simp only [List.length_cons]
      unfold encode_index_buffer_bound
      match htr : toTriples I with
      | [] => simp [encTris]
      | t :: ts =>
        have hV : 0 < V := by
          have hmem := toTriples_mem I t (htr ▸ List.mem_cons_self t ts)
          have := hvals t.1 hmem.1
          omega
        have hcomp : ∀ u ∈ toTriples I, u.1 < V ∧ u.2.1 < V ∧ u.2.2 < V := by
          intro u hu
          have hmem := toTriples_mem I u hu
          exact ⟨hvals _ hmem.1, hvals _ hmem.2.1, hvals _ hmem.2.2⟩
        have hle := encTris_length_le (toTriples I) idxState0 V
          (by simp [idxState0]; omega) hcomp
        rw [toTriples_length I] at hle
        rw [← htr]
        omega
  · intro bytes henc
    unfold encode_vertex_buffer at henc
    split at henc
    case isFalse => exact absurd henc (by simp)
    case isTrue hW =>
      have hb : bytes = vertexCodecVersion :: W ::
          encVtxBlocks (List.replicate W 0) R := by
        simpa using henc.symm
      subst hb
      simp only [List.length_cons]
      unfold encode_vertex_buffer_bound
      have hle := encVtxAux_length_le R.length (List.replicate W 0) R
        (by intro r hr; rw [List.length_replicate]; exact hR r hr)
      rw [List.length_replicate] at hle
      unfold encVtxBlocks
      omega

/-- Witness for C6 at a concrete index list and record stream. -/
theorem claim_c6_encode_within_bounds_witness :
    encode_index_buffer [0, 1, 2] 3 = some [224, 255, 254, 0, 254, 2, 254, 4] ∧
    ([224, 255, 254, 0, 254, 2, 254, 4] : List Nat).length ≤
      encode_index_buffer_bound 3 3 ∧
    encode_vertex_buffer 1 [[5]] = some [160, 1, 1, 5] ∧
    ([160, 1, 1, 5] : List Nat).length ≤ encode_vertex_buffer_bound 1 1 :=
  ⟨by decide,
   (claim_c6_encode_within_bounds [0, 1, 2] 3 1 [[5]] (by decide) (by decide)).1
     [224, 255, 254, 0, 254, 2, 254, 4] (by decide),
   by decide,
   (claim_c6_encode_within_bounds [0, 1, 2] 3 1 [[5]] (by decide) (by decide)).2
     [160, 1, 1, 5] (by decide)⟩

lemma decChannels_length : ∀ (prev : List Nat) (bl : Nat) (bytes : List Nat)
    (rows : List (List Nat)) (r : List Nat),
    decChannels prev bl bytes = some (rows, r) → rows.length = bl
  | [], bl, bytes, rows, r, h => by
      simp only [decChannels, Option.some.injEq, Prod.mk.injEq] at h
      rw [← h.1, List.length_replicate]
  | p :: ps, bl, [], rows, r, h => by simp [decChannels] at h
  | p :: ps, bl, sel :: rest, rows, r, h => by
      simp only [decChannels] at h
      by_cases h0 : sel = 0
      · rw [if_pos h0] at h
        match hrec : decChannels ps bl rest with
        | none => simp [hrec] at h
        | some (rows', r') =>
          simp only [hrec, Option.some.injEq, Prod.mk.injEq] at h
          rw [← h.1]
          rw [List.length_zipWith, undeltas_length, List.length_replicate,
            decChannels_length ps bl rest rows' r' hrec]
          simp
      · rw [if_neg h0] at h
        by_cases h1 : sel = 1
        · rw [if_pos h1] at h
          by_cases h2 : bl ≤ rest.length
          · rw [if_pos h2] at h
            match hrec : decChannels ps bl (rest.drop bl) with
            | none => simp [hrec] at h
            | some (rows', r') =>
              simp only [hrec, Option.some.injEq, Prod.mk.injEq] at h
              rw [← h.1]
              rw [List.length_zipWith, undeltas_length, List.length_take,
                decChannels_length ps bl _ rows' r' hrec]
              omega
          · rw [if_neg h2] at h; simp at h
        · rw [if_neg h1] at h; simp at h

lemma decVtxAux_length : ∀ (fuel : Nat) (prev : List Nat) (count : Nat)
    (bytes : List Nat) (rs : List (List Nat)) (r : List Nat),
    decVtxAux fuel prev count bytes = some (rs, r) → rs.length = count
  | fuel, prev, 0, bytes, rs, r, h => by
      cases fuel <;>
        · simp only [decVtxAux, Option.some.injEq, Prod.mk.injEq] at h
          rw [← h.1]
          rfl
  | 0, prev, c + 1, bytes, rs, r, h => by simp [decVtxAux] at h
  | f + 1, prev, c + 1, bytes, rs, r, h => by
      simp only [decVtxAux] at h
      match hch : decChannels prev (min vertexBlockSize (c + 1)) bytes with
      | none => simp [hch] at h
      | some (blk, rest) =>
        simp only [hch] at h
        try rw [List.getLastD_eq_getLast?] at h
        match hrec : decVtxAux f (blk.getLast?.getD prev)
            (c + 1 - min vertexBlockSize (c + 1)) rest with
        | none =>
            rw [hrec] at h
            simp at h
        | some (rs', r') =>
          simp only [hrec, Option.some.injEq, Prod.mk.injEq] at h
          rw [← h.1, List.length_append,
            decChannels_length _ _ _ _ _ hch,
            decVtxAux_length f _ _ _ _ _ hrec]
          have hmin : min vertexBlockSize (c + 1) ≤ c + 1 := min_le_right _ _
          omega

/-- C7: decode safety — on every byte sequence and every count, both decoders
terminate and return either a format error or a fully populated result of
exactly `count` elements (given a valid output element width for the index
decoder, which otherwise rejects the call as a contract violation). -/
theorem claim_c7_decode_total_or_error (tsize : Nat) (bytes1 : List Nat) (count1 : Nat)
    (size : Nat) (bytes2 : List Nat) (count2 : Nat)
    (ht : tsize = 2 ∨ tsize = 4) :
    (decode_index_buffer tsize bytes1 count1 = DecodeResult.formatError ∨
      ∃ l, decode_index_buffer tsize bytes1 count1 = DecodeResult.ok l ∧
        l.length = count1) ∧
    (decode_vertex_buffer size bytes2 count2 = DecodeResult.formatError ∨
      ∃ l, decode_vertex_buffer size bytes2 count2 = DecodeResult.ok l ∧
        l.length = count2) := by
  constructor
  · unfold decode_index_buffer
    rw [if_pos ht]
    by_cases h3 : 3 ∣ count1
    · rw [if_pos h3]
      split
      · rename_i b rest
        by_cases hv : b = indexCodecVersion
        · rw [if_pos hv]
          split
          · next ts heq =>
              right
              refine ⟨_, rfl, ?_⟩
              rw [List.length_map, ofTriples_length, decTris_length _ _ _ _ _ heq]
              omega
          · left; rfl
          · left; rfl
        · rw [if_neg hv]; left; rfl
      · left; rfl
    · rw [if_neg h3]; left; rfl
  · unfold decode_vertex_buffer
    split
    · rename_i v w rest
      by_cases hv : v = vertexCodecVersion ∧ w = size ∧ 0 < size ∧ size < 256
      · rw [if_pos hv]
        split
        · next rs heq =>
            right
            unfold decVtxBlocks at heq
            exact ⟨rs, rfl, decVtxAux_length _ _ _ _ _ _ heq⟩
        · left; rfl
        · left; rfl
      · rw [if_neg hv]; left; rfl
    · left; rfl

/-- Witness for C7 on truncated garbage inputs. -/
theorem claim_c7_decode_total_or_error_witness :
    (decode_index_buffer 4 [224, 7] 3 = DecodeResult.formatError ∨
      ∃ l, decode_index_buffer 4 [224, 7] 3 = DecodeResult.ok l ∧ l.length = 3) ∧
    (decode_vertex_buffer 1 [160, 1, 9] 5 = DecodeResult.formatError ∨
      ∃ l, decode_vertex_buffer 1 [160, 1, 9] 5 = DecodeResult.ok l ∧ l.length = 5) :=
  claim_c7_decode_total_or_error 4 [224, 7] 3 1 [160, 1, 9] 5 (by decide)
